import Mathlib

/-!
Verification of the counterparty resolution and category assignment engine of
`src/data_processing.py` (functions `extract_counterparty`, `assign_category`,
the amount normalization in `load_data`, and the per-row application in
`transform_file`).

The two lookup tables `ALIASES` and `CP2CAT` are loaded from JSON configuration
at process start (keys uppercased by the loaders); resolution is parametrized
here by the two tables, modelled as association lists (Python dicts have unique
keys; where a property needs a loader invariant it is taken as a hypothesis).

Python strings are modelled by Lean `String`; `str.upper()` / `str.lower()`
are modelled character-wise by `Char.toUpper` / `Char.toLower` (the ASCII case
maps); the Python substring test `pat in hay` is modelled by list infixhood of
the character data; Python string comparison (used by `sorted(..., reverse=True)`)
is code-point lexicographic comparison, modelled by `listLt` / `strLe` below;
Python's stable sort is modelled by `List.insertionSort` (also stable).
-/

namespace Dashboard

/-- Model of Python `str.upper()`: uppercase every character (ASCII case map). -/
def pyUpper (s : String) : String := ⟨s.data.map Char.toUpper⟩

/-- Model of Python `str.lower()`: lowercase every character (ASCII case map). -/
def pyLower (s : String) : String := ⟨s.data.map Char.toLower⟩

/-- Model of the Python substring test `pat in hay`: the character sequence of
`pat` occurs contiguously inside the character sequence of `hay`. -/
def strContains (hay pat : String) : Prop := pat.data <:+: hay.data

instance strContains.instDecidable : ∀ hay pat, Decidable (strContains hay pat) :=
  fun hay pat => List.decidableInfix pat.data hay.data

/-- Python comparison of two strings, as code-point lexicographic comparison of
their character sequences: the first differing character decides; a strict
proper initial segment is smaller. -/
def listLt : List Char → List Char → Prop
  | _, [] => False
  | [], _ :: _ => True
  | a :: as, b :: bs => a < b ∨ (a = b ∧ listLt as bs)

instance listLt.instDecidable : ∀ l1 l2, Decidable (listLt l1 l2) := fun l1 l2 => by
  induction l1 generalizing l2 with
  | nil =>
    cases l2 with
    | nil => exact isFalse (fun h => h)
    | cons b bs => exact isTrue trivial
  | cons a as ih =>
    cases l2 with
    | nil => exact isFalse (fun h => h)
    | cons b bs => exact @instDecidableOr _ _ _ (@instDecidableAnd _ _ _ (ih bs))

/-- Model of Python strict string comparison `a < b`. -/
def strLt (a b : String) : Prop := listLt a.data b.data

/-- Model of Python string comparison `a <= b`. -/
def strLe (a b : String) : Prop := strLt a b ∨ a = b

instance strLt.instDecidable : DecidableRel strLt := fun a b =>
  listLt.instDecidable a.data b.data

instance strLe.instDecidable : DecidableRel strLe := fun a b => by
  unfold strLe; infer_instance

theorem not_listLt_nil (l : List Char) : ¬ listLt l [] := by
  cases l <;> exact fun h => h

theorem str_eq_of_data_eq {a b : String} (h : a.data = b.data) : a = b := by
  cases a; cases b; exact congrArg String.mk h

theorem listLt_trichotomy : ∀ l1 l2 : List Char, listLt l1 l2 ∨ l1 = l2 ∨ listLt l2 l1 := by
  intro l1
  induction l1 with
  | nil =>
    intro l2
    cases l2 with
    | nil => exact Or.inr (Or.inl rfl)
    | cons b bs => exact Or.inl trivial
  | cons a as ih =>
    intro l2
    cases l2 with
    | nil => exact Or.inr (Or.inr trivial)
    | cons b bs =>
      rcases lt_trichotomy a b with h | h | h
      · exact Or.inl (Or.inl h)
      · rcases ih bs with h2 | h2 | h2
        · exact Or.inl (Or.inr ⟨h, h2⟩)
        · exact Or.inr (Or.inl (by rw [h, h2]))
        · exact Or.inr (Or.inr (Or.inr ⟨h.symm, h2⟩))
      · exact Or.inr (Or.inr (Or.inl h))

theorem listLt_trans : ∀ {l1 l2 l3 : List Char}, listLt l1 l2 → listLt l2 l3 → listLt l1 l3 := by
  intro l1 l2 l3
  induction l3 generalizing l1 l2 with
  | nil => intro _ h2; exact absurd h2 (not_listLt_nil l2)
  | cons c cs ih =>
    intro h1 h2
    cases l2 with
    | nil => exact absurd h1 (not_listLt_nil l1)
    | cons b bs =>
      cases l1 with
      | nil => exact trivial
      | cons a as =>
        rcases h1 with h1 | ⟨h1, h1'⟩ <;> rcases h2 with h2 | ⟨h2, h2'⟩
        · exact Or.inl (lt_trans h1 h2)
        · exact Or.inl (h2 ▸ h1)
        · exact Or.inl (h1 ▸ h2)
        · exact Or.inr ⟨h1.trans h2, ih h1' h2'⟩

theorem strLe_total (a b : String) : strLe a b ∨ strLe b a := by
  rcases listLt_trichotomy a.data b.data with h | h | h
  · exact Or.inl (Or.inl h)
  · exact Or.inl (Or.inr (str_eq_of_data_eq h))
  · exact Or.inr (Or.inl h)

theorem strLe_trans {a b c : String} (h1 : strLe a b) (h2 : strLe b c) : strLe a c := by
  rcases h1 with h1 | rfl <;> rcases h2 with h2 | rfl
  · exact Or.inl (listLt_trans h1 h2)
  · exact Or.inl h1
  · exact Or.inl h2
  · exact Or.inr rfl

/-- Descending tuple comparison used by `sorted(ALIASES.items(), reverse=True)`:
`a` may come before `b` iff the pair `b` is at most the pair `a` in the
lexicographic (key, then value) tuple order. -/
def pairDesc (a b : String × String) : Prop :=
  strLt b.1 a.1 ∨ (b.1 = a.1 ∧ strLe b.2 a.2)

/-- Descending string comparison used by `sorted(CP2CAT.keys(), reverse=True)`. -/
def strDesc (a b : String) : Prop := strLe b a

instance pairDesc.instDecidable : DecidableRel pairDesc := fun a b => by
  unfold pairDesc; infer_instance

instance strDesc.instDecidable : DecidableRel strDesc := fun a b => by
  unfold strDesc; infer_instance

instance pairDesc.instIsTotal : IsTotal (String × String) pairDesc where
  total a b := by
    unfold pairDesc
    rcases listLt_trichotomy a.1.data b.1.data with h | h | h
    · exact Or.inr (Or.inl h)
    · have he : a.1 = b.1 := str_eq_of_data_eq h
      rcases strLe_total a.2 b.2 with h2 | h2
      · exact Or.inr (Or.inr ⟨he, h2⟩)
      · exact Or.inl (Or.inr ⟨he.symm, h2⟩)
    · exact Or.inl (Or.inl h)

instance pairDesc.instIsTrans : IsTrans (String × String) pairDesc where
  trans a b c hab hbc := by
    unfold pairDesc at *
    rcases hab with h1 | ⟨h1, h1'⟩ <;> rcases hbc with h2 | ⟨h2, h2'⟩
    · exact Or.inl (listLt_trans h2 h1)
    · exact Or.inl (h2 ▸ h1)
    · exact Or.inl (h1 ▸ h2)
    · exact Or.inr ⟨h2.trans h1, strLe_trans h2' h1'⟩

instance strDesc.instIsTotal : IsTotal String strDesc where
  total a b := strLe_total b a

instance strDesc.instIsTrans : IsTrans String strDesc where
  trans _ _ _ hab hbc := strLe_trans hbc hab

/-- Model of `sorted(m.items(), reverse=True)` on a table. -/
def sortedItems (m : List (String × String)) : List (String × String) :=
  m.insertionSort pairDesc

/-- Model of `sorted(ks, reverse=True)` on a list of keys. -/
def sortedKeys (ks : List String) : List String :=
  ks.insertionSort strDesc

/-- Model of `extract_counterparty` from `src/data_processing.py`:
uppercase the subject; scan the alias table in descending key order and return
the uppercased canonical value of the first key contained in the subject;
otherwise scan the category-table keys in descending order and return the first
key contained in the subject; otherwise return the sentinel. -/
def extract_counterparty (ALIASES CP2CAT : List (String × String))
    (subject : String) : String :=
  let subject_upper := pyUpper subject
  match (sortedItems ALIASES).find? (fun p => decide (strContains subject_upper p.1)) with
  | some p => pyUpper p.2
  | none =>
    match (sortedKeys (CP2CAT.map Prod.fst)).find?
        (fun k => decide (strContains subject_upper k)) with
    | some k => k
    | none => "UNCATEGORIZED"

/-- Model of Python `dict.get(key, default)` on an association list. -/
def dictGet (m : List (String × String)) (key default : String) : String :=
  match m with
  | [] => default
  | (k, v) :: t => if k = key then v else dictGet t key default

/-- Model of `assign_category` from `src/data_processing.py`:
`CP2CAT.get(counterparty, "uncategorized")`. -/
def assign_category (CP2CAT : List (String × String)) (counterparty : String) : String :=
  dictGet CP2CAT counterparty "uncategorized"

/-- The per-subject resolution performed by `transform_file`:
`counterparty = extract_counterparty(subject)`, then
`category = assign_category(counterparty)`. -/
def resolve (ALIASES CP2CAT : List (String × String)) (subject : String) :
    String × String :=
  let cp := extract_counterparty ALIASES CP2CAT subject
  (cp, assign_category CP2CAT cp)

/-- The per-row application of resolution over the subject column in
`transform_file` (`df["subject"].apply(extract_counterparty)` followed by
`df["counterparty"].apply(assign_category)`). -/
def transformSubjects (ALIASES CP2CAT : List (String × String))
    (subjects : List String) : List (String × String) :=
  subjects.map (resolve ALIASES CP2CAT)

/-- Model of the amount normalization in `load_data`: delete every `.`
(thousands separator), then replace every `,` by `.` (decimal separator). -/
def normalizeAmount (s : String) : String :=
  let noThousands : String := ⟨s.data.filter (fun c => c ≠ '.')⟩
  ⟨noThousands.data.map (fun c => if c = ',' then '.' else c)⟩

/-- Digits of a nonempty decimal digit string, as a natural number. -/
def decDigits? (l : List Char) : Option Nat :=
  if l ≠ [] ∧ l.all (fun c => c.isDigit) then
    some (l.foldl (fun n c => 10 * n + (c.toNat - 48)) 0)
  else none

/-- Modelled from the spec: the numeric parse applied by `pandas.to_numeric`
(outside this repository) to the normalized amount string, restricted to
unsigned plain decimal strings `digits` or `digits.digits`. -/
def parseDecimal (s : String) : Option ℚ :=
  match s.data.splitOn '.' with
  | [w] => (decDigits? w).map (fun n => (n : ℚ))
  | [w, f] =>
    match decDigits? w, decDigits? f with
    | some a, some b => some ((a : ℚ) + (b : ℚ) / (10 : ℚ) ^ f.length)
    | _, _ => none
  | _ => none

/-! ### Scan lemmas: the first match of a descending scan dominates all matches -/

theorem find?_some_max {α} {r : α → α → Prop} {p : α → Bool} :
    ∀ {l : List α} {x : α}, l.Pairwise r → l.find? p = some x →
      ∀ y ∈ l, p y = true → y = x ∨ r x y := by
  intro l
  induction l with
  | nil => intro x _ hx; simp at hx
  | cons a t ih =>
    intro x hs hx y hy hpy
    rw [List.find?_cons] at hx
    rcases List.pairwise_cons.mp hs with ⟨hra, hst⟩
    cases hpa : p a with
    | true =>
      rw [hpa] at hx
      have hax : a = x := by simpa using hx
      rcases List.mem_cons.mp hy with rfl | hyt
      · exact Or.inl hax
      · exact Or.inr (hax ▸ hra y hyt)
    | false =>
      rw [hpa] at hx
      rcases List.mem_cons.mp hy with rfl | hyt
      · rw [hpy] at hpa; exact absurd hpa (by simp)
      · exact ih hst hx y hyt hpy

theorem find?_some_of_exists {α} {p : α → Bool} {l : List α} (h : ∃ x ∈ l, p x = true) :
    ∃ x, l.find? p = some x := by
  cases hf : l.find? p with
  | some x => exact ⟨x, rfl⟩
  | none =>
    rcases h with ⟨x, hx, hpx⟩
    exact absurd hpx (by simpa using List.find?_eq_none.mp hf x hx)

theorem mem_sortedItems {m : List (String × String)} {x : String × String} :
    x ∈ sortedItems m ↔ x ∈ m :=
  (List.perm_insertionSort pairDesc m).mem_iff

theorem mem_sortedKeys {ks : List String} {x : String} :
    x ∈ sortedKeys ks ↔ x ∈ ks :=
  (List.perm_insertionSort strDesc ks).mem_iff

theorem sortedItems_pairwise (m : List (String × String)) :
    (sortedItems m).Pairwise pairDesc :=
  List.sorted_insertionSort pairDesc m

theorem sortedKeys_pairwise (ks : List String) :
    (sortedKeys ks).Pairwise strDesc :=
  List.sorted_insertionSort strDesc ks

/-- If some alias key is contained in the uppercased subject, the alias scan
finds a matching entry whose key dominates every matching alias key in the
descending string order. -/
theorem alias_find_of_match {A : List (String × String)} {s : String}
    (h : ∃ p ∈ A, strContains (pyUpper s) p.1) :
    ∃ p, (sortedItems A).find? (fun q => decide (strContains (pyUpper s) q.1)) = some p ∧
      p ∈ A ∧ strContains (pyUpper s) p.1 ∧
      ∀ q ∈ A, strContains (pyUpper s) q.1 → strLe q.1 p.1 := by
  rcases h with ⟨p0, hp0, hc0⟩
  have hex : ∃ x ∈ sortedItems A, (fun q => decide (strContains (pyUpper s) q.1)) x = true :=
    ⟨p0, mem_sortedItems.mpr hp0, by simpa using hc0⟩
  rcases find?_some_of_exists hex with ⟨p, hfind⟩
  have hmem : p ∈ A := mem_sortedItems.mp (List.mem_of_find?_eq_some hfind)
  have hcont : strContains (pyUpper s) p.1 := by simpa using List.find?_some hfind
  refine ⟨p, hfind, hmem, hcont, fun q hq hcq => ?_⟩
  have := find?_some_max (sortedItems_pairwise A) hfind q (mem_sortedItems.mpr hq)
    (by simpa using hcq)
  rcases this with rfl | hr
  · exact Or.inr rfl
  · rcases hr with hlt | ⟨heq, _⟩
    · exact Or.inl hlt
    · exact Or.inr heq

/-- If some category-table key is contained in the uppercased subject, the
counterparty scan finds a matching key dominating every matching key. -/
theorem key_find_of_match {C : List (String × String)} {s : String}
    (h : ∃ k ∈ C.map Prod.fst, strContains (pyUpper s) k) :
    ∃ k, (sortedKeys (C.map Prod.fst)).find?
        (fun k => decide (strContains (pyUpper s) k)) = some k ∧
      k ∈ C.map Prod.fst ∧ strContains (pyUpper s) k ∧
      ∀ k' ∈ C.map Prod.fst, strContains (pyUpper s) k' → strLe k' k := by
  rcases h with ⟨k0, hk0, hc0⟩
  have hex : ∃ x ∈ sortedKeys (C.map Prod.fst),
      (fun k => decide (strContains (pyUpper s) k)) x = true :=
    ⟨k0, mem_sortedKeys.mpr hk0, by simpa using hc0⟩
  rcases find?_some_of_exists hex with ⟨k, hfind⟩
  have hmem : k ∈ C.map Prod.fst := mem_sortedKeys.mp (List.mem_of_find?_eq_some hfind)
  have hcont : strContains (pyUpper s) k := by simpa using List.find?_some hfind
  refine ⟨k, hfind, hmem, hcont, fun k' hk' hck' => ?_⟩
  have := find?_some_max (sortedKeys_pairwise (C.map Prod.fst)) hfind k'
    (mem_sortedKeys.mpr hk') (by simpa using hck')
  rcases this with rfl | hr
  · exact Or.inr rfl
  · exact hr

/-- The value of `extract_counterparty` when the alias scan hits. -/
theorem extract_of_alias_find {A C : List (String × String)} {s : String}
    {p : String × String}
    (h : (sortedItems A).find? (fun q => decide (strContains (pyUpper s) q.1)) = some p) :
    extract_counterparty A C s = pyUpper p.2 := by
  simp only [extract_counterparty]
  rw [h]

/-- The value of `extract_counterparty` when the alias scan misses and the
counterparty scan hits. -/
theorem extract_of_key_find {A C : List (String × String)} {s : String} {k : String}
    (hA : ∀ p ∈ A, ¬ strContains (pyUpper s) p.1)
    (h : (sortedKeys (C.map Prod.fst)).find?
      (fun k => decide (strContains (pyUpper s) k)) = some k) :
    extract_counterparty A C s = k := by
  simp only [extract_counterparty]
  have hnone : (sortedItems A).find? (fun q => decide (strContains (pyUpper s) q.1)) = none :=
    List.find?_eq_none.mpr fun q hq => by
      simpa using hA q (mem_sortedItems.mp hq)
  rw [hnone, h]

/-- The value of `extract_counterparty` when both scans miss. -/
theorem extract_of_no_match {A C : List (String × String)} {s : String}
    (hA : ∀ p ∈ A, ¬ strContains (pyUpper s) p.1)
    (hC : ∀ k ∈ C.map Prod.fst, ¬ strContains (pyUpper s) k) :
    extract_counterparty A C s = "UNCATEGORIZED" := by
  simp only [extract_counterparty]
  have hnone : (sortedItems A).find? (fun q => decide (strContains (pyUpper s) q.1)) = none :=
    List.find?_eq_none.mpr fun q hq => by
      simpa using hA q (mem_sortedItems.mp hq)
  have hnone2 : (sortedKeys (C.map Prod.fst)).find?
      (fun k => decide (strContains (pyUpper s) k)) = none :=
    List.find?_eq_none.mpr fun k hk => by
      simpa using hC k (mem_sortedKeys.mp hk)
  rw [hnone, hnone2]

/-! ### dictGet lemmas -/

theorem dictGet_eq_of_not_mem_keys {m : List (String × String)} {k d : String}
    (h : k ∉ m.map Prod.fst) : dictGet m k d = d := by
  induction m with
  | nil => rfl
  | cons a t ih =>
    have hne : a.1 ≠ k := fun he => h (by simp [he.symm])
    cases a with
    | mk k' v =>
      simp only [dictGet, if_neg hne]
      exact ih fun hm => h (by simp [hm])

theorem dictGet_self_or_value (m : List (String × String)) (k d : String) :
    dictGet m k d = d ∨ ∃ p ∈ m, dictGet m k d = p.2 := by
  induction m with
  | nil => exact Or.inl rfl
  | cons a t ih =>
    cases a with
    | mk k' v =>
      by_cases h : k' = k
      · exact Or.inr ⟨(k', v), by simp, by simp [dictGet, h]⟩
      · rcases ih with h2 | ⟨p, hp, h2⟩
        · exact Or.inl (by simp [dictGet, h, h2])
        · exact Or.inr ⟨p, by simp [hp], by simp [dictGet, h, h2]⟩

/-! ### Character-level case lemmas -/

theorem toUpper_eq (c : Char) :
    c.toUpper = if c.toNat ≥ 97 ∧ c.toNat ≤ 122 then Char.ofNat (c.toNat - 32) else c := rfl

theorem toLower_eq (c : Char) :
    c.toLower = if c.toNat ≥ 65 ∧ c.toNat ≤ 90 then Char.ofNat (c.toNat + 32) else c := rfl

theorem char_toNat_ofNat {n : Nat} (h : n.isValidChar) : (Char.ofNat n).toNat = n := by
  rw [Char.ofNat, dif_pos h]
  rfl

theorem toUpper_toUpper (c : Char) : c.toUpper.toUpper = c.toUpper := by
  rw [toUpper_eq c]
  by_cases h : c.toNat ≥ 97 ∧ c.toNat ≤ 122
  · rw [if_pos h]
    have hv : (c.toNat - 32).isValidChar := Or.inl (by omega)
    have ht : (Char.ofNat (c.toNat - 32)).toNat = c.toNat - 32 := char_toNat_ofNat hv
    rw [toUpper_eq, if_neg]
    rw [ht]
    omega
  · rw [if_neg h, toUpper_eq, if_neg h]

theorem toUpper_toLower (c : Char) : c.toLower.toUpper = c.toUpper := by
  rw [toLower_eq c]
  by_cases h : c.toNat ≥ 65 ∧ c.toNat ≤ 90
  · rw [if_pos h]
    have hv : (c.toNat + 32).isValidChar := Or.inl (by omega)
    have ht : (Char.ofNat (c.toNat + 32)).toNat = c.toNat + 32 := char_toNat_ofNat hv
    rw [toUpper_eq, if_pos (by rw [ht]; omega), ht, toUpper_eq, if_neg (by omega)]
    have : c.toNat + 32 - 32 = c.toNat := by omega
    rw [this, Char.ofNat_toNat]
  · rw [if_neg h]

theorem pyUpper_pyUpper (s : String) : pyUpper (pyUpper s) = pyUpper s := by
  unfold pyUpper
  apply congrArg
  show (s.data.map Char.toUpper).map Char.toUpper = s.data.map Char.toUpper
  rw [List.map_map]
  exact List.map_congr_left fun a _ => toUpper_toUpper a

theorem pyUpper_pyLower (s : String) : pyUpper (pyLower s) = pyUpper s := by
  unfold pyUpper pyLower
  apply congrArg
  show (s.data.map Char.toLower).map Char.toUpper = s.data.map Char.toUpper
  rw [List.map_map]
  exact List.map_congr_left fun a _ => toUpper_toLower a

/-! ### Claim theorems -/

/-- C1: for every subject (including the empty string) and tables with
uppercase-normalized category keys (the loader invariant), resolution — a total
Lean function, hence terminating and exception-free — returns a pair whose
counterparty is the sentinel "UNCATEGORIZED", an uppercased alias-table value,
or a category-table key (itself uppercase), and whose category is the sentinel
"uncategorized" or a category-table value. -/
theorem C1_resolve_total_range (A C : List (String × String)) (s : String)
    (hkeys : ∀ k ∈ C.map Prod.fst, pyUpper k = k) :
    ((resolve A C s).1 = "UNCATEGORIZED" ∨
      (pyUpper (resolve A C s).1 = (resolve A C s).1 ∧
        ((∃ p ∈ A, (resolve A C s).1 = pyUpper p.2) ∨
          (resolve A C s).1 ∈ C.map Prod.fst))) ∧
    ((resolve A C s).2 = "uncategorized" ∨ (resolve A C s).2 ∈ C.map Prod.snd) := by
  have h1 : (resolve A C s).1 = extract_counterparty A C s := rfl
  have h2 : (resolve A C s).2 = assign_category C (extract_counterparty A C s) := rfl
  constructor
  · cases hf : (sortedItems A).find? (fun q => decide (strContains (pyUpper s) q.1)) with
    | some p =>
      have he := extract_of_alias_find (C := C) hf
      refine Or.inr ⟨?_, Or.inl ⟨p, mem_sortedItems.mp (List.mem_of_find?_eq_some hf), ?_⟩⟩
      · rw [h1, he]; exact pyUpper_pyUpper p.2
      · rw [h1, he]
    | none =>
      have hA : ∀ p ∈ A, ¬ strContains (pyUpper s) p.1 := by
        intro p hp
        have := List.find?_eq_none.mp hf p (mem_sortedItems.mpr hp)
        simpa using this
      cases hf2 : (sortedKeys (C.map Prod.fst)).find?
          (fun k => decide (strContains (pyUpper s) k)) with
      | some k =>
        have he := extract_of_key_find hA hf2
        have hk : k ∈ C.map Prod.fst := mem_sortedKeys.mp (List.mem_of_find?_eq_some hf2)
        refine Or.inr ⟨?_, Or.inr ?_⟩
        · rw [h1, he]; exact hkeys k hk
        · rw [h1, he]; exact hk
      | none =>
        have hC : ∀ k ∈ C.map Prod.fst, ¬ strContains (pyUpper s) k := by
          intro k hk
          have := List.find?_eq_none.mp hf2 k (mem_sortedKeys.mpr hk)
          simpa using this
        exact Or.inl (by rw [h1]; exact extract_of_no_match hA hC)
  · rw [h2]
    unfold assign_category
    rcases dictGet_self_or_value C (extract_counterparty A C s) "uncategorized" with h | ⟨p, hp, h⟩
    · exact Or.inl h
    · exact Or.inr (h ▸ List.mem_map.mpr ⟨p, hp, rfl⟩)

/-- Witness for C1 at the spec example tables and subject. -/
theorem C1_witness :
    (∀ k ∈ ([("AMAZON", "shopping")] : List (String × String)).map Prod.fst,
      pyUpper k = k) ∧
    (((resolve [("AMZN MKTP", "Amazon")] [("AMAZON", "shopping")] "AMZN MKTP DE*1234").1 =
        "UNCATEGORIZED" ∨
      (pyUpper (resolve [("AMZN MKTP", "Amazon")] [("AMAZON", "shopping")]
            "AMZN MKTP DE*1234").1 =
          (resolve [("AMZN MKTP", "Amazon")] [("AMAZON", "shopping")] "AMZN MKTP DE*1234").1 ∧
        ((∃ p ∈ ([("AMZN MKTP", "Amazon")] : List (String × String)),
            (resolve [("AMZN MKTP", "Amazon")] [("AMAZON", "shopping")]
              "AMZN MKTP DE*1234").1 = pyUpper p.2) ∨
          (resolve [("AMZN MKTP", "Amazon")] [("AMAZON", "shopping")]
              "AMZN MKTP DE*1234").1 ∈
            ([("AMAZON", "shopping")] : List (String × String)).map Prod.fst))) ∧
    ((resolve [("AMZN MKTP", "Amazon")] [("AMAZON", "shopping")] "AMZN MKTP DE*1234").2 =
        "uncategorized" ∨
      (resolve [("AMZN MKTP", "Amazon")] [("AMAZON", "shopping")] "AMZN MKTP DE*1234").2 ∈
        ([("AMAZON", "shopping")] : List (String × String)).map Prod.snd)) :=
  ⟨by decide, C1_resolve_total_range [("AMZN MKTP", "Amazon")] [("AMAZON", "shopping")]
    "AMZN MKTP DE*1234" (by decide)⟩

/-- C2: if the uppercased subject contains some alias key and some
category-table key, the alias pass wins: the result is the uppercased canonical
value of a matching alias entry, and the counterparty pass is never reached —
the result does not depend on the category table at all. -/
theorem C2_alias_precedence (A C Cother : List (String × String)) (s : String)
    (halias : ∃ p ∈ A, strContains (pyUpper s) p.1)
    (hcat : ∃ k ∈ C.map Prod.fst, strContains (pyUpper s) k) :
    (∃ p ∈ A, strContains (pyUpper s) p.1 ∧
      extract_counterparty A C s = pyUpper p.2) ∧
    extract_counterparty A C s = extract_counterparty A Cother s := by
  rcases alias_find_of_match halias with ⟨p, hfind, hmem, hcont, _⟩
  refine ⟨⟨p, hmem, hcont, extract_of_alias_find hfind⟩, ?_⟩
  rw [extract_of_alias_find (C := C) hfind, extract_of_alias_find (C := Cother) hfind]

/-- Witness for C2: subject containing the alias key "ACME" and the
category-table key "PAYMENT". -/
theorem C2_witness :
    (∃ p ∈ ([("ACME", "Acme Corp")] : List (String × String)),
      strContains (pyUpper "PAYMENT ACME") p.1) ∧
    (∃ k ∈ ([("PAYMENT", "misc")] : List (String × String)).map Prod.fst,
      strContains (pyUpper "PAYMENT ACME") k) ∧
    ((∃ p ∈ ([("ACME", "Acme Corp")] : List (String × String)),
        strContains (pyUpper "PAYMENT ACME") p.1 ∧
        extract_counterparty [("ACME", "Acme Corp")] [("PAYMENT", "misc")]
          "PAYMENT ACME" = pyUpper p.2) ∧
      extract_counterparty [("ACME", "Acme Corp")] [("PAYMENT", "misc")] "PAYMENT ACME" =
        extract_counterparty [("ACME", "Acme Corp")] [] "PAYMENT ACME") :=
  ⟨by decide, by decide,
    C2_alias_precedence [("ACME", "Acme Corp")] [("PAYMENT", "misc")] [] "PAYMENT ACME"
      (by decide) (by decide)⟩

/-- C3: the scan is deterministic (a pure function of the tables and subject)
and respects descending lexicographic order: whenever two keys of the same
table match the uppercased subject, the key actually selected matches and is
greater than or equal to both in the string order, i.e. it comes first in
descending lexicographic order; the first conjunct covers the alias table, the
second the category table (whose scan runs when no alias matches). -/
theorem C3_tiebreak_descending (A C : List (String × String)) (s : String) :
    (∀ k1 k2, k1 ∈ A.map Prod.fst → k2 ∈ A.map Prod.fst →
      strContains (pyUpper s) k1 → strContains (pyUpper s) k2 →
      ∃ p ∈ A, strContains (pyUpper s) p.1 ∧
        extract_counterparty A C s = pyUpper p.2 ∧ strLe k1 p.1 ∧ strLe k2 p.1) ∧
    ((∀ p ∈ A, ¬ strContains (pyUpper s) p.1) →
      ∀ k1 k2, k1 ∈ C.map Prod.fst → k2 ∈ C.map Prod.fst →
      strContains (pyUpper s) k1 → strContains (pyUpper s) k2 →
      ∃ k ∈ C.map Prod.fst, strContains (pyUpper s) k ∧
        extract_counterparty A C s = k ∧ strLe k1 k ∧ strLe k2 k) := by
  constructor
  · intro k1 k2 h1 h2 hc1 hc2
    rcases List.mem_map.mp h1 with ⟨p1, hp1, he1⟩
    rcases List.mem_map.mp h2 with ⟨p2, hp2, he2⟩
    have hmatch : ∃ p ∈ A, strContains (pyUpper s) p.1 :=
      ⟨p1, hp1, by rw [he1]; exact hc1⟩
    rcases alias_find_of_match hmatch with ⟨p, hfind, hmem, hcont, hdom⟩
    refine ⟨p, hmem, hcont, extract_of_alias_find hfind, ?_, ?_⟩
    · rw [← he1]; exact hdom p1 hp1 (by rw [he1]; exact hc1)
    · rw [← he2]; exact hdom p2 hp2 (by rw [he2]; exact hc2)
  · intro hA k1 k2 h1 h2 hc1 hc2
    rcases key_find_of_match ⟨k1, h1, hc1⟩ with ⟨k, hfind, hmem, hcont, hdom⟩
    exact ⟨k, hmem, hcont, extract_of_key_find hA hfind, hdom k1 h1 hc1, hdom k2 h2 hc2⟩

/-- Witness for C3: both conjuncts at concrete tables where the keys "A" and
"B" both match the subject "AB". -/
theorem C3_witness :
    ("A" ∈ ([("A", "x"), ("B", "y")] : List (String × String)).map Prod.fst) ∧
    ("B" ∈ ([("A", "x"), ("B", "y")] : List (String × String)).map Prod.fst) ∧
    strContains (pyUpper "AB") "A" ∧ strContains (pyUpper "AB") "B" ∧
    (∃ p ∈ ([("A", "x"), ("B", "y")] : List (String × String)),
      strContains (pyUpper "AB") p.1 ∧
      extract_counterparty [("A", "x"), ("B", "y")] [("AB", "z")] "AB" = pyUpper p.2 ∧
      strLe "A" p.1 ∧ strLe "B" p.1) ∧
    (∀ p ∈ ([] : List (String × String)), ¬ strContains (pyUpper "AB") p.1) ∧
    (∃ k ∈ ([("A", "x"), ("B", "y")] : List (String × String)).map Prod.fst,
      strContains (pyUpper "AB") k ∧
      extract_counterparty [] [("A", "x"), ("B", "y")] "AB" = k ∧
      strLe "A" k ∧ strLe "B" k) :=
  ⟨by decide, by decide, by decide, by decide,
    (C3_tiebreak_descending [("A", "x"), ("B", "y")] [("AB", "z")] "AB").1 "A" "B"
      (by decide) (by decide) (by decide) (by decide),
    by decide,
    (C3_tiebreak_descending [] [("A", "x"), ("B", "y")] "AB").2 (by decide) "A" "B"
      (by decide) (by decide) (by decide) (by decide)⟩

/-- C4: the tie-break is not a longest-match order: there are an alias table
and a subject for which two alias keys match, the selected key is strictly
shorter than the other matching key, and the two keys map to different
canonical counterparties (the shorter key shadows the longer one). -/
theorem C4_not_longest_match :
    ∃ (A : List (String × String)) (s k1 k2 v1 v2 : String),
      (k1, v1) ∈ A ∧ (k2, v2) ∈ A ∧
      strContains (pyUpper s) k1 ∧ strContains (pyUpper s) k2 ∧
      k2.length < k1.length ∧ pyUpper v1 ≠ pyUpper v2 ∧
      extract_counterparty A [] s = pyUpper v2 :=
  ⟨[("AB CDE", "Specific"), ("B", "Short")], "AB CDE", "AB CDE", "B", "Specific", "Short",
    by decide, by decide, by decide, by decide, by decide, by decide, by decide⟩

/-- C5: the category step is a pure lookup with default:
`assign_category(c)` equals the table lookup of `c` with fallback
"uncategorized", and the two fallback sentinels differ in casing. -/
theorem C5_assign_is_lookup (C : List (String × String)) (c : String) :
    assign_category C c = ((C.lookup c).getD "uncategorized") ∧
    "uncategorized" ≠ "UNCATEGORIZED" := by
  refine ⟨?_, by decide⟩
  induction C with
  | nil => rfl
  | cons a t ih =>
    cases a with
    | mk k v =>
      by_cases h : k = c
      · subst h
        simp [assign_category, dictGet, List.lookup]
      · have hb : (c == k) = false := beq_eq_false_iff_ne.mpr (Ne.symm h)
        simpa [assign_category, dictGet, List.lookup, h, hb] using ih

/-- C6 counterexample to the claim as stated: with an (adversarial) category
table whose key is the counterparty sentinel itself, a subject matching no key
of either table does not resolve to ("UNCATEGORIZED", "uncategorized"). -/
theorem C6_counterexample :
    (∀ p ∈ ([] : List (String × String)), ¬ strContains (pyUpper "") p.1) ∧
    (∀ k ∈ ([("UNCATEGORIZED", "weird")] : List (String × String)).map Prod.fst,
      ¬ strContains (pyUpper "") k) ∧
    resolve [] [("UNCATEGORIZED", "weird")] "" ≠ ("UNCATEGORIZED", "uncategorized") :=
  ⟨by decide, by decide, by decide⟩

/-- C6 (amended): if no alias key and no category-table key is contained in the
uppercased subject, and "UNCATEGORIZED" is not itself a category-table key,
then resolve returns exactly ("UNCATEGORIZED", "uncategorized"). -/
theorem C6_no_match_fallback (A C : List (String × String)) (s : String)
    (hA : ∀ p ∈ A, ¬ strContains (pyUpper s) p.1)
    (hC : ∀ k ∈ C.map Prod.fst, ¬ strContains (pyUpper s) k)
    (hU : "UNCATEGORIZED" ∉ C.map Prod.fst) :
    resolve A C s = ("UNCATEGORIZED", "uncategorized") := by
  have he := extract_of_no_match hA hC
  simp only [resolve, assign_category]
  rw [he, dictGet_eq_of_not_mem_keys hU]

/-- Witness for C6 at the spec example: subject "RENT JANUARY" matching no
table entry; also covers the empty subject via the same theorem shape. -/
theorem C6_witness :
    (∀ p ∈ ([("AMZN MKTP", "Amazon")] : List (String × String)),
      ¬ strContains (pyUpper "RENT JANUARY") p.1) ∧
    (∀ k ∈ ([("AMAZON", "shopping")] : List (String × String)).map Prod.fst,
      ¬ strContains (pyUpper "RENT JANUARY") k) ∧
    ("UNCATEGORIZED" ∉ ([("AMAZON", "shopping")] : List (String × String)).map Prod.fst) ∧
    resolve [("AMZN MKTP", "Amazon")] [("AMAZON", "shopping")] "RENT JANUARY" =
      ("UNCATEGORIZED", "uncategorized") :=
  ⟨by decide, by decide, by decide,
    C6_no_match_fallback [("AMZN MKTP", "Amazon")] [("AMAZON", "shopping")] "RENT JANUARY"
      (by decide) (by decide) (by decide)⟩

/-- C7: resolution is invariant under the letter-case of the subject: it gives
the same result on the uppercased and on the lowercased subject; in particular
any two subjects with the same uppercase form resolve identically. -/
theorem C7_case_insensitive (A C : List (String × String)) (s : String) :
    resolve A C (pyUpper s) = resolve A C s ∧
    resolve A C (pyLower s) = resolve A C s := by
  have h1 : extract_counterparty A C (pyUpper s) = extract_counterparty A C s := by
    simp only [extract_counterparty, pyUpper_pyUpper]
  have h2 : extract_counterparty A C (pyLower s) = extract_counterparty A C s := by
    simp only [extract_counterparty, pyUpper_pyLower]
  constructor <;> simp only [resolve, h1, h2]

/-- C8: resolution is deterministic and stateless: the enriched pair produced
for a subject is a function of the subject and the two tables only — in the
row pipeline it is the same value `resolve A C s` wherever and however often
the subject occurs, with no dependence on the rows processed before or after. -/
theorem C8_deterministic_stateless (A C : List (String × String))
    (pre post : List String) (s : String) :
    transformSubjects A C (pre ++ s :: post) =
      transformSubjects A C pre ++ resolve A C s :: transformSubjects A C post := by
  simp [transformSubjects]

/-- C9: the locale amount normalization (delete every thousands separator dot,
replace the decimal comma by a dot, then parse) maps "1.234,56" to the numeric
value 1234.56. -/
theorem C9_amount_roundtrip :
    normalizeAmount "1.234,56" = "1234.56" ∧
    parseDecimal (normalizeAmount "1.234,56") = some (1234.56 : ℚ) := by
  refine ⟨by decide, ?_⟩
  have h : parseDecimal (normalizeAmount "1.234,56") =
      some (((1234 : ℕ) : ℚ) + ((56 : ℕ) : ℚ) / (10 : ℚ) ^ 2) := rfl
  rw [h, Option.some.injEq]
  norm_num

/-- C10: an alias match does not guarantee a configured category: if the alias
pass selects the entry `p` (the first match of the descending alias scan) and
the uppercased canonical value of that selected entry is not a category-table
key, resolve pairs that counterparty with the sentinel category
"uncategorized". The hypothesis constrains only the selected alias; other
matching aliases may well have configured categories. -/
theorem C10_alias_match_without_category (A C : List (String × String)) (s : String)
    (p : String × String)
    (hfind : (sortedItems A).find? (fun q => decide (strContains (pyUpper s) q.1)) = some p)
    (hnk : pyUpper p.2 ∉ C.map Prod.fst) :
    p ∈ A ∧ strContains (pyUpper s) p.1 ∧
      resolve A C s = (pyUpper p.2, "uncategorized") := by
  have hmem : p ∈ A := mem_sortedItems.mp (List.mem_of_find?_eq_some hfind)
  have hcont : strContains (pyUpper s) p.1 := by simpa using List.find?_some hfind
  have he := extract_of_alias_find (C := C) hfind
  refine ⟨hmem, hcont, ?_⟩
  simp only [resolve, assign_category]
  rw [he, dictGet_eq_of_not_mem_keys hnk]

/-- Witness for C10: the selected alias ("B", "NoCat") has no category entry,
while another matching alias ("A", "Amazon") does. -/
theorem C10_witness :
    ((sortedItems [("B", "NoCat"), ("A", "Amazon")]).find?
        (fun q => decide (strContains (pyUpper "AB") q.1)) = some ("B", "NoCat")) ∧
    (pyUpper "NoCat" ∉
      ([("AMAZON", "x")] : List (String × String)).map Prod.fst) ∧
    (("B", "NoCat") ∈ ([("B", "NoCat"), ("A", "Amazon")] : List (String × String)) ∧
      strContains (pyUpper "AB") "B" ∧
      resolve [("B", "NoCat"), ("A", "Amazon")] [("AMAZON", "x")] "AB" =
        (pyUpper "NoCat", "uncategorized")) :=
  ⟨by decide, by decide,
    C10_alias_match_without_category [("B", "NoCat"), ("A", "Amazon")] [("AMAZON", "x")]
      "AB" ("B", "NoCat") (by decide) (by decide)⟩

end Dashboard
